import Mathlib

/-!
# Verification of the video-search core (transcript chunker + similarity index)

Shallow embedding of `src/transcript_processor.py` (the `TranscriptChunk`
data class and `TranscriptProcessor.chunk_transcript`) and
`src/search_engine.py` (class `VideoSearchEngine`).

Modelling conventions:
* Python `float` time stamps and scores are modelled as `ℚ` (the claims under
  study are order/structure properties, not rounding properties).
* numpy vectors are `List ℚ`; a chunk's optional embedding is `Option (List ℚ)`.
* The faiss `IndexFlatIP` object is modelled as its dimension together with the
  ordered list of stored vectors.  `add` fails when a vector's length differs
  from the index dimension (faiss asserts `d == self.d`; a ragged batch already
  fails inside `np.array(...).astype('float32')` — both surface as an
  exception, modelled by a single dimension-mismatch error).  `search` returns
  exactly `k` (score, label) rows: the `min(k, ntotal)` true nearest
  neighbours by descending inner product first, then padding rows with label
  `-1` and the faiss sentinel score (`-FLT_MAX`), exactly as faiss pads when
  `k > ntotal`.
* Python list subscription `lst[i]` with a possibly negative faiss label is
  modelled by `pyGet` (negative indices address from the back, out-of-range is
  an `IndexError`).
* Each `VideoSearchEngine` method is embedded as a function that returns its
  result *and* the state of the engine after the call, so that mutation (and
  its absence) is part of the model.  Exceptions propagate as an `Except`
  error value; for `add_chunks`, which mutates `self.chunks` before the
  faiss call can fail, the post-state is returned alongside the optional error.
* The sentence-transformer model is an external collaborator: it enters the
  model as an arbitrary `encode : String → List ℚ` parameter.
-/

/-- Python `str.strip()`: drop leading and trailing whitespace.  Defined
structurally over the string's character list (rather than through
`String.trim`'s byte-position loops) so that it evaluates on concrete
inputs; the semantics is the same trimming of whitespace. -/
def pyStrip (s : String) : String :=
  ⟨((s.data.dropWhile Char.isWhitespace).reverse.dropWhile
      Char.isWhitespace).reverse⟩

/-- Python's `" ".join(xs)`. -/
def joinSpace : List String → String
  | [] => ""
  | [s] => s
  | s :: rest => s ++ " " ++ joinSpace rest

/-- Python's `f"{n:02d}"` for the integers produced by `_format_timestamp`. -/
def pad2 (n : Int) : String :=
  let s := toString n
  if s.length < 2 then "0" ++ s else s

/-- `VideoSearchEngine._format_timestamp`: `minutes = int(seconds // 60)`,
`secs = int(seconds % 60)`, rendered `MM:SS` zero-padded.  Python float `%`
with positive divisor yields a value in `[0, 60)`, and `int` of a nonnegative
value is its floor. -/
def format_timestamp (seconds : ℚ) : String :=
  let minutes : Int := ⌊seconds / 60⌋
  let secs : Int := ⌊seconds - 60 * (⌊seconds / 60⌋ : ℚ)⌋
  pad2 minutes ++ ":" ++ pad2 secs

/-- Python list subscription `l[i]` for an `Int` index: negative indices count
from the back; out of range is `none` (an `IndexError` in Python). -/
def pyGet {α : Type} (l : List α) (i : Int) : Option α :=
  if 0 ≤ i then l.get? i.toNat
  else if -(l.length : Int) ≤ i then l.get? (l.length - (-i).toNat)
  else none

/-- Inner product of two vectors (zips, as numpy does on equal shapes). -/
def dotProduct (v w : List ℚ) : ℚ :=
  (List.zipWith (· * ·) v w).sum

/-! ## Transcript processor (`src/transcript_processor.py`) -/

/-- A Whisper segment dict `{"start": .., "end": .., "text": ..}`.
The `end` key is spelled `stop` because `end` is a Lean keyword. -/
structure Segment where
  start : ℚ
  stop : ℚ
  text : String
deriving DecidableEq, Repr

/-- The `TranscriptChunk` dataclass. -/
structure TranscriptChunk where
  video_id : String
  start_time : ℚ
  end_time : ℚ
  text : String
  embedding : Option (List ℚ) := none
deriving DecidableEq, Repr, Inhabited

/-- The loop state of `chunk_transcript`: accumulated chunks, the text buffer
`current_chunk_text`, and `current_start_time`. -/
structure ChunkState where
  chunks : List TranscriptChunk
  buf : List String
  cur : ℚ
deriving DecidableEq, Repr

/-- One iteration of the `for segment in segments` loop of
`TranscriptProcessor.chunk_transcript`. -/
def chunkStep (video_id : String) (chunk_duration : ℚ) (st : ChunkState)
    (segment : Segment) : ChunkState :=
  let segment_text := pyStrip segment.text
  if segment.stop - st.cur > chunk_duration ∧ st.buf ≠ [] then
    { chunks := st.chunks ++
        [{ video_id := video_id, start_time := st.cur, end_time := segment.start,
           text := joinSpace st.buf }],
      buf := [segment_text],
      cur := segment.start }
  else
    { st with buf := st.buf ++ [segment_text] }

/-- `TranscriptProcessor.chunk_transcript(segments, video_id, chunk_duration)`. -/
def chunk_transcript (segments : List Segment) (video_id : String)
    (chunk_duration : ℚ) : List TranscriptChunk :=
  let init : ChunkState :=
    { chunks := [], buf := [],
      cur := match segments with | [] => 0 | s :: _ => s.start }
  let st := segments.foldl (chunkStep video_id chunk_duration) init
  if st.buf ≠ [] then
    st.chunks ++
      [{ video_id := video_id, start_time := st.cur,
         end_time := match segments.getLast? with | some s => s.stop | none => 0,
         text := joinSpace st.buf }]
  else st.chunks

/-! ## faiss model -/

/-- Errors surfaced by the modelled Python code: a vector length disagreeing
with an index dimension (faiss assertion / numpy shape error), constructing an
index from `None` (`self.dimension` unset), and a bad list subscript. -/
inductive PyError where
  | dimensionMismatch
  | typeError
  | indexError
deriving DecidableEq, Repr

/-- A faiss `IndexFlatIP`: its dimension and the stored vectors in insertion
order. -/
structure IndexFlatIP where
  d : Nat
  vectors : List (List ℚ)
deriving DecidableEq, Repr

/-- `index.add(batch)`: appends the batch, failing when some vector's length
differs from the index dimension. -/
def faissAdd (idx : IndexFlatIP) (vecs : List (List ℚ)) :
    Except PyError IndexFlatIP :=
  if vecs.all (fun v => v.length = idx.d) then
    .ok { idx with vectors := idx.vectors ++ vecs }
  else .error .dimensionMismatch

/-- The sentinel score faiss leaves in unfilled result slots of an
inner-product search (`-FLT_MAX`). -/
def paddingScore : ℚ := -340282346638528859811704183484516925440

/-- Insert a scored position into a list sorted by descending score, earlier
position first on ties. -/
def insertScored (x : ℚ × Nat) : List (ℚ × Nat) → List (ℚ × Nat)
  | [] => [x]
  | y :: ys =>
    if x.1 > y.1 ∨ (x.1 = y.1 ∧ x.2 < y.2) then x :: y :: ys
    else y :: insertScored x ys

/-- Sort scored positions by descending score, position order on ties. -/
def sortScored : List (ℚ × Nat) → List (ℚ × Nat)
  | [] => []
  | x :: xs => insertScored x (sortScored xs)

/-- The scored positions of an index, best first: each stored vector's inner
product with the query, ranked descending, truncated to the best `k`. -/
def faissTop (idx : IndexFlatIP) (q : List ℚ) (k : Nat) : List (ℚ × Nat) :=
  (sortScored (idx.vectors.enum.map (fun p => (dotProduct q p.2, p.1)))).take k

/-- `index.search(q, k)` for one query vector: the `min(k, ntotal)` best
(score, label) rows by descending inner product, padded to exactly `k` rows
with `(-FLT_MAX, -1)` as faiss does when `k` exceeds `ntotal`. -/
def faissSearch (idx : IndexFlatIP) (q : List ℚ) (k : Nat) :
    List (ℚ × Int) :=
  (faissTop idx q k).map (fun p => (p.1, (p.2 : Int))) ++
    List.replicate (k - idx.vectors.length) (paddingScore, -1)

/-! ## Search engine (`src/search_engine.py`) -/

/-- The mutable state of a `VideoSearchEngine`: `self.chunks`, `self.index`,
`self.dimension`. -/
structure VideoSearchEngine where
  chunks : List TranscriptChunk
  index : Option IndexFlatIP
  dimension : Option Nat
deriving DecidableEq, Repr

/-- `VideoSearchEngine.__init__`: empty corpus, no index, no dimension. -/
def initEngine : VideoSearchEngine :=
  { chunks := [], index := none, dimension := none }

/-- `VideoSearchEngine.add_chunks(chunks)`.  Returns the post-state and the
error, if any, that the call raised.  Faithful to the statement order:
`self.chunks.extend(chunks)` happens first (so the corpus keeps the new
chunks even when the later faiss `add` raises); the index is created on the
first call that has a batch containing an embedded chunk, with the dimension
taken from the first embedded chunk of that batch; then the batch's embedded
vectors are added to the index. -/
def add_chunks (e : VideoSearchEngine) (chunks : List TranscriptChunk) :
    VideoSearchEngine × Option PyError :=
  let e1 : VideoSearchEngine := { e with chunks := e.chunks ++ chunks }
  let valid := chunks.filter (fun c => c.embedding.isSome)
  let e2 : VideoSearchEngine :=
    if e1.index = none ∧ chunks ≠ [] ∧ valid ≠ [] then
      let dim := ((valid.headD default).embedding.getD []).length
      { e1 with dimension := some dim, index := some ⟨dim, []⟩ }
    else e1
  if chunks ≠ [] ∧ valid ≠ [] then
    match e2.index with
    | none => (e2, some .typeError)
    | some idx =>
      match faissAdd idx (valid.map (fun c => c.embedding.getD [])) with
      | .ok idx2 => ({ e2 with index := some idx2 }, none)
      | .error err => (e2, some err)
  else (e2, none)

/-- One search-result dict. -/
structure SearchResult where
  video_id : String
  start_time : ℚ
  end_time : ℚ
  text : String
  similarity_score : ℚ
  timestamp_formatted : String
deriving DecidableEq, Repr

/-- The result dict built for a chunk and a score in `search` /
`search_by_video`. -/
def mkResult (chunk : TranscriptChunk) (score : ℚ) : SearchResult :=
  { video_id := chunk.video_id, start_time := chunk.start_time,
    end_time := chunk.end_time, text := chunk.text,
    similarity_score := score,
    timestamp_formatted := format_timestamp chunk.start_time }

/-- The `for score, idx in zip(scores[0], indices[0])` result-assembly loop:
each faiss label is looked up in `chunkList` by Python subscription. -/
def buildResults (chunkList : List TranscriptChunk) :
    List (ℚ × Int) → Except PyError (List SearchResult)
  | [] => .ok []
  | (score, label) :: rest =>
    match pyGet chunkList label with
    | none => .error .indexError
    | some chunk =>
      match buildResults chunkList rest with
      | .ok rs => .ok (mkResult chunk score :: rs)
      | .error err => .error err

/-- `VideoSearchEngine.search(query, top_k)`: empty result when the corpus is
empty or the index was never created; otherwise a faiss search over the whole
index, with each returned label looked up in `self.chunks`.  Returns the
result (or the raised error) together with the post-state. -/
def search (encode : String → List ℚ) (e : VideoSearchEngine)
    (query : String) (top_k : Nat) :
    Except PyError (List SearchResult) × VideoSearchEngine :=
  match e.index with
  | none => (.ok [], e)
  | some idx =>
    if e.chunks = [] then (.ok [], e)
    else
      let qv := encode query
      if qv.length = idx.d then
        (buildResults e.chunks (faissSearch idx qv top_k), e)
      else (.error .dimensionMismatch, e)

/-- The summary dict of `get_video_summary`. -/
structure VideoSummary where
  video_id : String
  total_duration : ℚ
  chunk_count : Nat
  duration_formatted : String
deriving DecidableEq, Repr

/-- Python `max(iterable)` over a nonempty list: fold of `max` from the head. -/
def pyMax (x : ℚ) (xs : List ℚ) : ℚ :=
  xs.foldl max x

/-- `VideoSearchEngine.get_video_summary(video_id)`: `{}` (modelled `none`)
when the video has no chunks, otherwise the max end time and chunk count.
Returns the result together with the post-state. -/
def get_video_summary (e : VideoSearchEngine) (video_id : String) :
    Option VideoSummary × VideoSearchEngine :=
  match e.chunks.filter (fun c => c.video_id = video_id) with
  | [] => (none, e)
  | c :: rest =>
    let total_duration := pyMax c.end_time (rest.map (fun c => c.end_time))
    (some { video_id := video_id, total_duration := total_duration,
            chunk_count := (c :: rest).length,
            duration_formatted := format_timestamp total_duration }, e)

/-- `VideoSearchEngine.get_all_videos()`: `list(set(..))` — membership is the
video ids of the corpus; the Python set iteration order is arbitrary, the
model uses first-occurrence order.  Returns the result with the post-state. -/
def get_all_videos (e : VideoSearchEngine) :
    List String × VideoSearchEngine :=
  ((e.chunks.map (fun c => c.video_id)).dedup, e)

/-- `VideoSearchEngine.search_by_video(video_id, query, top_k)`: filter the
corpus to the video, build a temporary `IndexFlatIP(self.dimension)` over the
filtered chunks that have embeddings, search it, and look each label up in
the filtered list.  Returns the result (or raised error) with the
post-state. -/
def search_by_video (encode : String → List ℚ) (e : VideoSearchEngine)
    (video_id : String) (query : String) (top_k : Nat) :
    Except PyError (List SearchResult) × VideoSearchEngine :=
  match e.chunks.filter (fun c => c.video_id = video_id) with
  | [] => (.ok [], e)
  | video_chunks =>
    match e.dimension with
    | none => (.error .typeError, e)
    | some d =>
      let valid := video_chunks.filter (fun c => c.embedding.isSome)
      let added :=
        if valid ≠ [] then
          faissAdd ⟨d, []⟩ (valid.map (fun c => c.embedding.getD []))
        else .ok ⟨d, []⟩
      match added with
      | .error err => (.error err, e)
      | .ok temp =>
        let qv := encode query
        if qv.length = temp.d then
          (buildResults video_chunks (faissSearch temp qv top_k), e)
        else (.error .dimensionMismatch, e)

/-- Spec-side description of scoped search (`query_scoped`, spec §4.2):
filter the corpus to the video id first, preserving relative order; build a
temporary index over exactly the filtered embedded vectors, preserving their
relative order; then run the same ranking as the global `search` on the
resulting temporary engine state.  Empty sequence when the video has no
chunks. -/
def query_scoped_spec (encode : String → List ℚ) (e : VideoSearchEngine)
    (video_id : String) (query : String) (top_k : Nat) :
    Except PyError (List SearchResult) :=
  let filtered := e.chunks.filter (fun c => c.video_id = video_id)
  if filtered = [] then .ok []
  else
    match e.dimension with
    | none => .error .typeError
    | some d =>
      match faissAdd ⟨d, []⟩
          ((filtered.filter (fun c => c.embedding.isSome)).map
            (fun c => c.embedding.getD [])) with
      | .error err => .error err
      | .ok temp =>
        (search encode
          { chunks := filtered, index := some temp, dimension := e.dimension }
          query top_k).1

/-- Engine states reachable from a fresh engine by `add_chunks` calls in which
every inserted chunk carries an embedding and no call raised an error. -/
inductive EmbReachable : VideoSearchEngine → Prop
  | init : EmbReachable initEngine
  | step (e : VideoSearchEngine) (cs : List TranscriptChunk) :
      EmbReachable e → (∀ c ∈ cs, c.embedding.isSome) →
      (add_chunks e cs).2 = none → EmbReachable (add_chunks e cs).1

/-- Invariant used for contiguity: the accumulated chunks are pairwise
contiguous and the last one (if any) ends at `current_start_time`. -/
def ChainInv (st : ChunkState) : Prop :=
  List.Chain' (fun a b => a.end_time = b.start_time) st.chunks ∧
  ∀ c, st.chunks.getLast? = some c → c.end_time = st.cur

/-- Invariant for text fidelity: the text collected so far (chunk texts then
the open buffer) joins to the join of the trimmed texts of the processed
segments, and everything is empty exactly when nothing was processed. -/
def TextInv (st : ChunkState) (pre : List Segment) : Prop :=
  joinSpace (st.chunks.map (fun c => c.text) ++ st.buf) =
    joinSpace (pre.map (fun s => pyStrip s.text)) ∧
  ((st.chunks = [] ∧ st.buf = []) ↔ pre = [])

/-- The C1 alignment invariant: the index (when created) stores exactly the
corpus chunks' embedding vectors in order, the dimension matches, and the
dimension came from the first chunk. -/
def Aligned (e : VideoSearchEngine) : Prop :=
  (e.index = none → e.chunks = []) ∧
  ∀ idx, e.index = some idx →
    idx.vectors = e.chunks.map (fun c => c.embedding.getD []) ∧
    e.dimension = some idx.d ∧
    ∃ c rest, e.chunks = c :: rest ∧ idx.d = (c.embedding.getD []).length

/-- A chunk with no embedding (used by counterexamples). -/
def cNoEmb : TranscriptChunk := ⟨"v1", 0, 30, "t", none⟩

/-- A chunk with a 1-dimensional embedding (used by witnesses). -/
def cEmb : TranscriptChunk := ⟨"v1", 0, 30, "t", some [1]⟩

/-- The engine after inserting the single embedded chunk `cEmb`. -/
def engOne : VideoSearchEngine := (add_chunks initEngine [cEmb]).1

/-- Two-video engine used by the C3 witness. -/
def engTwo : VideoSearchEngine :=
  (add_chunks initEngine [⟨"video_001", 0, 30, "a", some [1, 0]⟩,
    ⟨"video_002", 0, 30, "b", some [0, 1]⟩]).1

/-- Engine holding the three `video_001` chunks of the spec scenario. -/
def eng8 : VideoSearchEngine :=
  (add_chunks initEngine [⟨"video_001", 0, 30, "x", some [1]⟩,
    ⟨"video_001", 30, 60, "y", some [1]⟩,
    ⟨"video_001", 60, 90, "z", some [1]⟩]).1

/-- Three contiguous 30-second segments (witness input). -/
def segsW : List Segment := [⟨0, 30, "s1"⟩, ⟨30, 60, "s2"⟩, ⟨60, 90, "s3"⟩]

/-- Segments with non-decreasing starts but an end time that goes backwards:
the middle segment is longer than 30 seconds. -/
def segsC7 : List Segment := [⟨0, 10, "a"⟩, ⟨5, 100, "b"⟩, ⟨6, 20, "c"⟩]

/-! ## Lemmas and theorems -/

/-! ## Helper lemmas: the chunker loop -/

lemma chunkStep_buf_ne (v : String) (d : ℚ) (st : ChunkState) (s : Segment) :
    (chunkStep v d st s).buf ≠ [] := by
  unfold chunkStep
  split <;> simp

lemma foldl_chunkStep_buf_pres (v : String) (d : ℚ) :
    ∀ (segs : List Segment) (st : ChunkState), st.buf ≠ [] →
      (segs.foldl (chunkStep v d) st).buf ≠ [] := by
  intro segs
  induction segs with
  | nil => intro st h; simpa using h
  | cons s rest ih =>
    intro st _
    exact ih (chunkStep v d st s) (chunkStep_buf_ne v d st s)

lemma foldl_chunkStep_buf_ne (v : String) (d : ℚ)
    (segs : List Segment) (st : ChunkState) (h : segs ≠ []) :
    (segs.foldl (chunkStep v d) st).buf ≠ [] := by
  cases segs with
  | nil => exact absurd rfl h
  | cons s rest =>
    exact foldl_chunkStep_buf_pres v d rest (chunkStep v d st s)
      (chunkStep_buf_ne v d st s)

lemma chunkStep_chunks_grow (v : String) (d : ℚ) (st : ChunkState)
    (s : Segment) :
    ∃ s0, (chunkStep v d st s).chunks = st.chunks ++ s0 := by
  unfold chunkStep
  split
  · exact ⟨_, rfl⟩
  · exact ⟨[], by simp⟩

lemma foldl_chunkStep_chunks_grow (v : String) (d : ℚ) :
    ∀ (segs : List Segment) (st : ChunkState),
      ∃ suf, (segs.foldl (chunkStep v d) st).chunks = st.chunks ++ suf := by
  intro segs
  induction segs with
  | nil => intro st; exact ⟨[], by simp⟩
  | cons s rest ih =>
    intro st
    obtain ⟨s0, h0⟩ := chunkStep_chunks_grow v d st s
    obtain ⟨suf, hsuf⟩ := ih (chunkStep v d st s)
    exact ⟨s0 ++ suf, by rw [List.foldl_cons, hsuf, h0, List.append_assoc]⟩

lemma chunkStep_chain (v : String) (d : ℚ) (st : ChunkState) (s : Segment)
    (h : ChainInv st) : ChainInv (chunkStep v d st s) := by
  obtain ⟨h1, h2⟩ := h
  unfold chunkStep
  split
  · constructor
    · rw [List.chain'_append]
      refine ⟨h1, List.chain'_singleton _, ?_⟩
      intro x hx y hy
      simp only [List.head?_cons, Option.mem_def, Option.some.injEq] at hy
      subst hy
      exact h2 x hx
    · intro c hc
      rw [List.getLast?_concat] at hc
      cases hc
      rfl
  · exact ⟨h1, h2⟩

lemma foldl_chunkStep_chain (v : String) (d : ℚ) :
    ∀ (segs : List Segment) (st : ChunkState), ChainInv st →
      ChainInv (segs.foldl (chunkStep v d) st) := by
  intro segs
  induction segs with
  | nil => intro st h; simpa using h
  | cons s rest ih =>
    intro st h
    exact ih (chunkStep v d st s) (chunkStep_chain v d st s h)

/-- C5: for a non-empty segment sequence with non-decreasing start times,
consecutive chunks produced by `chunk_transcript` are contiguous — each
chunk's `end_time` equals the next chunk's `start_time` — and the final
chunk ends at the last segment's end. -/
theorem C5_contiguity (segs : List Segment) (vid : String) (dur : ℚ)
    (hne : segs ≠ [])
    (hmono : List.Chain' (fun a b => a.start ≤ b.start) segs) :
    List.Chain' (fun a b => a.end_time = b.start_time)
      (chunk_transcript segs vid dur) ∧
    ∀ s, segs.getLast? = some s →
      ∃ c, (chunk_transcript segs vid dur).getLast? = some c ∧
        c.end_time = s.stop := by
  cases segs with
  | nil => exact absurd rfl hne
  | cons s0 rest =>
    obtain ⟨s, hs⟩ : ∃ s, (s0 :: rest).getLast? = some s :=
      ⟨(s0 :: rest).getLast (by simp), List.getLast?_eq_getLast _ _⟩
    have hinv : ChainInv (List.foldl (chunkStep vid dur)
        ⟨[], [], s0.start⟩ (s0 :: rest)) :=
      foldl_chunkStep_chain vid dur (s0 :: rest) ⟨[], [], s0.start⟩
        ⟨List.chain'_nil, by intro c hc; simp at hc⟩
    have hbuf : (List.foldl (chunkStep vid dur)
        ⟨[], [], s0.start⟩ (s0 :: rest)).buf ≠ [] :=
      foldl_chunkStep_buf_ne vid dur (s0 :: rest) ⟨[], [], s0.start⟩ (by simp)
    rw [chunk_transcript]
    simp only [hs, if_pos hbuf]
    constructor
    · rw [List.chain'_append]
      refine ⟨hinv.1, List.chain'_singleton _, ?_⟩
      intro x hx y hy
      simp only [List.head?_cons, Option.mem_def, Option.some.injEq] at hy
      subst hy
      exact hinv.2 x hx
    · intro s' hs'
      simp only [Option.some.injEq] at hs'
      subst hs'
      exact ⟨_, List.getLast?_concat _, rfl⟩

lemma joinSpace_cons (x : String) (C : List String) (h : C ≠ []) :
    joinSpace (x :: C) = x ++ " " ++ joinSpace C := by
  cases C with
  | nil => exact absurd rfl h
  | cons c cs => rfl

lemma joinSpace_append_singleton (xs : List String) (t : String) (h : xs ≠ []) :
    joinSpace (xs ++ [t]) = joinSpace xs ++ " " ++ t := by
  induction xs with
  | nil => exact absurd rfl h
  | cons x xs ih =>
    cases xs with
    | nil => rfl
    | cons y ys =>
      have hys := ih (by simp)
      rw [List.cons_append, joinSpace_cons x ((y :: ys) ++ [t]) (by simp),
        hys, joinSpace_cons x (y :: ys) (by simp)]
      simp [String.append_assoc]

lemma joinSpace_flatten_cons (B C : List String) (h : B ≠ []) :
    joinSpace (joinSpace B :: C) = joinSpace (B ++ C) := by
  induction B with
  | nil => exact absurd rfl h
  | cons b B ih =>
    cases B with
    | nil =>
      cases C with
      | nil => rfl
      | cons c cs => rfl
    | cons y ys =>
      have hB : joinSpace (joinSpace (y :: ys) :: C) = joinSpace ((y :: ys) ++ C) :=
        ih (by simp)
      cases C with
      | nil =>
        simp only [List.append_nil] at hB ⊢
        rw [joinSpace_cons b (y :: ys) (by simp)]
        rfl
      | cons c cs =>
        rw [joinSpace_cons _ (c :: cs) (by simp),
          joinSpace_cons b (y :: ys) (by simp), List.cons_append,
          joinSpace_cons b ((y :: ys) ++ (c :: cs)) (by simp), ← hB,
          joinSpace_cons _ (c :: cs) (by simp)]
        simp [String.append_assoc]

lemma joinSpace_flatten (A B C : List String) (h : B ≠ []) :
    joinSpace (A ++ (joinSpace B :: C)) = joinSpace (A ++ (B ++ C)) := by
  induction A with
  | nil => exact joinSpace_flatten_cons B C h
  | cons a A ih =>
    rw [List.cons_append, List.cons_append,
      joinSpace_cons a (A ++ (joinSpace B :: C)) (by simp),
      joinSpace_cons a (A ++ (B ++ C)) (by simp [h]), ih]

lemma chunkStep_text (v : String) (d : ℚ) (st : ChunkState) (s : Segment)
    (pre : List Segment) (h : TextInv st pre) :
    TextInv (chunkStep v d st s) (pre ++ [s]) := by
  obtain ⟨h1, h2⟩ := h
  have hpre_map : (pre ++ [s]).map (fun x => pyStrip x.text) =
      pre.map (fun x => pyStrip x.text) ++ [pyStrip s.text] := by simp
  unfold chunkStep
  split
  case isTrue hc =>
    obtain ⟨-, hbuf⟩ := hc
    have hpre : pre ≠ [] := by
      intro hp
      exact hbuf (h2.mpr hp).2
    constructor
    · simp only [List.map_append, List.map_cons, List.map_nil]
      rw [List.append_assoc, List.singleton_append,
        joinSpace_flatten _ _ _ hbuf, ← List.append_assoc,
        joinSpace_append_singleton _ _ (by simp [hbuf]), h1,
        joinSpace_append_singleton _ _ (by simpa using hpre)]
    · constructor
      · intro hcontra
        simp at hcontra
      · intro hp
        exact absurd hp (by simp)
  case isFalse =>
    constructor
    · by_cases hX : st.chunks.map (fun c => c.text) ++ st.buf = []
      · have hch : st.chunks = [] := by
          rcases List.append_eq_nil.mp hX with ⟨hm, -⟩
          simpa using hm
        have hb : st.buf = [] := (List.append_eq_nil.mp hX).2
        have hp : pre = [] := h2.mp ⟨hch, hb⟩
        subst hp
        simp only [hch, hb, List.map_nil, List.nil_append, List.map_cons]
      · have hpre : pre ≠ [] := by
          intro hp
          obtain ⟨hch, hb⟩ := h2.mpr hp
          exact hX (by simp [hch, hb])
        simp only [← List.append_assoc]
        rw [joinSpace_append_singleton _ _ hX, h1, hpre_map,
          joinSpace_append_singleton _ _ (by simpa using hpre)]
    · constructor
      · intro hcontra
        simp at hcontra
      · intro hp
        exact absurd hp (by simp)

lemma foldl_chunkStep_text (v : String) (d : ℚ) :
    ∀ (segs : List Segment) (st : ChunkState) (pre : List Segment),
      TextInv st pre →
      TextInv (segs.foldl (chunkStep v d) st) (pre ++ segs) := by
  intro segs
  induction segs with
  | nil => intro st pre h; simpa using h
  | cons s rest ih =>
    intro st pre h
    have := ih (chunkStep v d st s) (pre ++ [s]) (chunkStep_text v d st s pre h)
    simpa using this

lemma joinSpace_concat_buf (X : List String) (b : List String) (hb : b ≠ []) :
    joinSpace (X ++ [joinSpace b]) = joinSpace (X ++ b) := by
  have := joinSpace_flatten X b [] hb
  simpa using this

/-- C6: joining the texts of all produced chunks with single spaces equals
joining the stripped texts of all input segments with single spaces —
chunking loses or reorders no text. -/
theorem C6_text_fidelity (segs : List Segment) (vid : String) (dur : ℚ) :
    joinSpace ((chunk_transcript segs vid dur).map (fun c => c.text)) =
      joinSpace (segs.map (fun s => pyStrip s.text)) := by
  cases segs with
  | nil => rfl
  | cons s0 rest =>
    have hinv : TextInv (List.foldl (chunkStep vid dur)
        ⟨[], [], s0.start⟩ (s0 :: rest)) (s0 :: rest) := by
      have := foldl_chunkStep_text vid dur (s0 :: rest) ⟨[], [], s0.start⟩ []
        ⟨rfl, by simp⟩
      simpa using this
    have hbuf : (List.foldl (chunkStep vid dur)
        ⟨[], [], s0.start⟩ (s0 :: rest)).buf ≠ [] :=
      foldl_chunkStep_buf_ne vid dur (s0 :: rest) ⟨[], [], s0.start⟩ (by simp)
    rw [chunk_transcript]
    simp only [if_pos hbuf, List.map_append, List.map_cons, List.map_nil]
    rw [joinSpace_concat_buf _ _ hbuf]
    simpa using hinv.1

lemma chunkStep_cur (v : String) (d : ℚ) (st : ChunkState) (s : Segment) :
    (chunkStep v d st s).cur = st.cur ∨ (chunkStep v d st s).cur = s.start := by
  unfold chunkStep
  split
  · right; rfl
  · left; rfl

lemma foldl_chunkStep_times (v : String) (d : ℚ) :
    ∀ (segs : List Segment) (st : ChunkState),
      List.Pairwise (fun a b => a.start ≤ b.start) segs →
      (∀ s ∈ segs, st.cur ≤ s.start) →
      (∀ c ∈ st.chunks, c.start_time ≤ c.end_time) →
      (∀ c ∈ (segs.foldl (chunkStep v d) st).chunks,
        c.start_time ≤ c.end_time) ∧
      ((segs.foldl (chunkStep v d) st).cur = st.cur ∨
        ∃ s ∈ segs, (segs.foldl (chunkStep v d) st).cur = s.start) := by
  intro segs
  induction segs with
  | nil =>
    intro st _ _ h3
    exact ⟨by simpa using h3, Or.inl rfl⟩
  | cons s rest ih =>
    intro st hpw hcur hok
    have hchunks1 : ∀ c ∈ (chunkStep v d st s).chunks,
        c.start_time ≤ c.end_time := by
      unfold chunkStep
      split
      · intro c hc
        rcases List.mem_append.mp hc with h | h
        · exact hok c h
        · simp only [List.mem_singleton] at h
          subst h
          exact hcur s (by simp)
      · intro c hc
        exact hok c hc
    have hcur1 : ∀ r ∈ rest, (chunkStep v d st s).cur ≤ r.start := by
      intro r hr
      rcases chunkStep_cur v d st s with h | h
      · rw [h]; exact hcur r (by simp [hr])
      · rw [h]; exact (List.pairwise_cons.mp hpw).1 r hr
    obtain ⟨ha, hb⟩ := ih (chunkStep v d st s)
      (List.pairwise_cons.mp hpw).2 hcur1 hchunks1
    refine ⟨by simpa using ha, ?_⟩
    have hfold : (s :: rest).foldl (chunkStep v d) st =
        rest.foldl (chunkStep v d) (chunkStep v d st s) := rfl
    rw [hfold]
    rcases hb with h | ⟨r, hr, h⟩
    · rcases chunkStep_cur v d st s with h2 | h2
      · left; rw [h, h2]
      · right; exact ⟨s, by simp, by rw [h, h2]⟩
    · right; exact ⟨r, by simp [hr], h⟩

lemma mem_of_getLast?_eq {α : Type} (l : List α) (x : α)
    (h : l.getLast? = some x) : x ∈ l := by
  have hx : x ∈ l.getLast? := by rw [h]; rfl
  obtain ⟨hne, heq⟩ := List.mem_getLast?_eq_getLast hx
  rw [heq]
  exact List.getLast_mem hne

lemma pairwise_le_getLast :
    ∀ (l : List Segment),
      List.Pairwise (fun a b => a.start ≤ b.start) l →
      ∀ x ∈ l, ∀ s, l.getLast? = some s → x.start ≤ s.start := by
  intro l
  induction l with
  | nil => intro _ x hx; exact absurd hx (by simp)
  | cons a t ih =>
    intro hpw x hx s hs
    cases t with
    | nil =>
      simp only [List.mem_singleton] at hx
      simp only [List.getLast?_singleton, Option.some.injEq] at hs
      rw [hx, hs]
    | cons b m =>
      rw [List.getLast?_cons_cons] at hs
      rcases List.mem_cons.mp hx with h | h
      · subst h
        have hmem : s ∈ b :: m := by
          cases hbm : (b :: m).getLast? with
          | none => simp at hbm
          | some y =>
            rw [hbm] at hs
            cases hs
            exact mem_of_getLast?_eq _ _ hbm
        exact (List.pairwise_cons.mp hpw).1 s hmem
      · exact ih (List.pairwise_cons.mp hpw).2 x h s hs

/-- C9: when every segment has `end ≥ start` and start times are
non-decreasing, every chunk produced by `chunk_transcript` satisfies
`start_time ≤ end_time`. -/
theorem C9_start_le_end (segs : List Segment) (vid : String) (dur : ℚ)
    (hmono : List.Pairwise (fun a b => a.start ≤ b.start) segs)
    (hwf : ∀ s ∈ segs, s.start ≤ s.stop) :
    ∀ c ∈ chunk_transcript segs vid dur, c.start_time ≤ c.end_time := by
  cases segs with
  | nil =>
    intro c hc
    exact absurd hc (by simp [chunk_transcript])
  | cons s0 rest =>
    have hcur0 : ∀ s ∈ s0 :: rest, (⟨[], [], s0.start⟩ : ChunkState).cur ≤ s.start := by
      intro s hsm
      rcases List.mem_cons.mp hsm with h | h
      · subst h; exact le_refl _
      · exact (List.pairwise_cons.mp hmono).1 s h
    obtain ⟨hok, hcur⟩ := foldl_chunkStep_times vid dur (s0 :: rest)
      ⟨[], [], s0.start⟩ hmono hcur0 (by intro c hc; exact absurd hc (by simp))
    obtain ⟨slast, hslast⟩ : ∃ s, (s0 :: rest).getLast? = some s :=
      ⟨(s0 :: rest).getLast (by simp), List.getLast?_eq_getLast _ _⟩
    have hbuf : (List.foldl (chunkStep vid dur)
        ⟨[], [], s0.start⟩ (s0 :: rest)).buf ≠ [] :=
      foldl_chunkStep_buf_ne vid dur (s0 :: rest) ⟨[], [], s0.start⟩ (by simp)
    intro c hc
    rw [chunk_transcript] at hc
    simp only [hslast, if_pos hbuf] at hc
    rcases List.mem_append.mp hc with h | h
    · exact hok c h
    · simp only [List.mem_singleton] at h
      subst h
      show (List.foldl (chunkStep vid dur) ⟨[], [], s0.start⟩ (s0 :: rest)).cur ≤ slast.stop
      have hcurle : (List.foldl (chunkStep vid dur)
          ⟨[], [], s0.start⟩ (s0 :: rest)).cur ≤ slast.start := by
        rcases hcur with h2 | ⟨r, hr, h2⟩
        · rw [h2]
          exact pairwise_le_getLast _ hmono s0 (by simp) slast hslast
        · rw [h2]
          exact pairwise_le_getLast _ hmono r hr slast hslast
      exact le_trans hcurle (hwf slast (mem_of_getLast?_eq _ _ hslast))

lemma chunkStep_long (v : String) (d : ℚ) (st : ChunkState) (s : Segment)
    (hlong : s.stop - s.start > d) (hcur : st.cur ≤ s.start)
    (hcase : st.buf = [] → st.cur = s.start) :
    (chunkStep v d st s).buf = [pyStrip s.text] ∧
    (chunkStep v d st s).cur = s.start := by
  unfold chunkStep
  split
  case isTrue h => exact ⟨rfl, rfl⟩
  case isFalse h =>
    have hbuf : st.buf = [] := by
      by_contra hb
      exact h ⟨lt_of_lt_of_le hlong (by linarith), hb⟩
    have hc := hcase hbuf
    exact ⟨by simp [hbuf], hc⟩

lemma chunkStep_flush (v : String) (d : ℚ) (st : ChunkState) (s : Segment)
    (h1 : s.stop - st.cur > d) (h2 : st.buf ≠ []) :
    chunkStep v d st s =
      ⟨st.chunks ++ [⟨v, st.cur, s.start, joinSpace st.buf, none⟩],
       [pyStrip s.text], s.start⟩ := by
  unfold chunkStep
  rw [if_pos ⟨h1, h2⟩]

lemma foldl_long_alone (v : String) (d : ℚ) (st : ChunkState)
    (long : Segment) (post : List Segment)
    (hcur : st.cur ≤ long.start)
    (hcase : st.buf = [] → st.cur = long.start)
    (hlong : long.stop - long.start > d)
    (hstops : List.Chain' (fun a b => a.stop ≤ b.stop) (long :: post)) :
    (∃ c ∈ (List.foldl (chunkStep v d) st (long :: post)).chunks,
       c.text = pyStrip long.text ∧ c.start_time = long.start) ∨
    ((List.foldl (chunkStep v d) st (long :: post)).buf = [pyStrip long.text] ∧
     (List.foldl (chunkStep v d) st (long :: post)).cur = long.start ∧
     post = []) := by
  obtain ⟨hb1, hc1⟩ := chunkStep_long v d st long hlong hcur hcase
  cases post with
  | nil => right; exact ⟨hb1, hc1, rfl⟩
  | cons p rest =>
    left
    have hps : long.stop ≤ p.stop := (List.chain'_cons.mp hstops).1
    have hflush := chunkStep_flush v d (chunkStep v d st long) p
      (by rw [hc1]; linarith) (by rw [hb1]; simp)
    rw [hc1, hb1] at hflush
    simp only [joinSpace] at hflush
    obtain ⟨suf, hsuf⟩ := foldl_chunkStep_chunks_grow v d rest
      (chunkStep v d (chunkStep v d st long) p)
    have hfold : List.foldl (chunkStep v d) st (long :: p :: rest) =
        List.foldl (chunkStep v d)
          (chunkStep v d (chunkStep v d st long) p) rest := rfl
    rw [hfold, hsuf, hflush]
    exact ⟨⟨v, long.start, p.start, pyStrip long.text, none⟩,
      by simp, rfl, rfl⟩

lemma chunk_transcript_cons_eq (s0 : Segment) (rest : List Segment)
    (vid : String) (dur : ℚ) :
    chunk_transcript (s0 :: rest) vid dur =
      (List.foldl (chunkStep vid dur) ⟨[], [], s0.start⟩ (s0 :: rest)).chunks ++
      [⟨vid,
        (List.foldl (chunkStep vid dur) ⟨[], [], s0.start⟩ (s0 :: rest)).cur,
        ((s0 :: rest).getLast (by simp)).stop,
        joinSpace
          (List.foldl (chunkStep vid dur) ⟨[], [], s0.start⟩ (s0 :: rest)).buf,
        none⟩] := by
  rw [chunk_transcript]
  have hbuf := foldl_chunkStep_buf_ne vid dur (s0 :: rest)
    ⟨[], [], s0.start⟩ (by simp)
  simp only [if_pos hbuf, List.getLast?_eq_getLast (s0 :: rest) (by simp)]

/-- C7 (amended): when both the start times and the end times of the
segments are non-decreasing, a single segment whose duration exceeds
`chunk_duration` is never split — a chunk is emitted containing exactly
that segment's stripped text, starting at the segment's start.  (With only
the start times monotone, the claim as stated is false: see
`C7_counterexample`.) -/
theorem C7_amended (vid : String) (dur : ℚ) (pre post : List Segment)
    (long : Segment)
    (hpw : List.Pairwise (fun a b => a.start ≤ b.start) (pre ++ long :: post))
    (hstops : List.Chain' (fun a b => a.stop ≤ b.stop) (pre ++ long :: post))
    (hlong : long.stop - long.start > dur) :
    ∃ c ∈ chunk_transcript (pre ++ long :: post) vid dur,
      c.text = pyStrip long.text ∧ c.start_time = long.start := by
  have hstops2 : List.Chain' (fun a b => a.stop ≤ b.stop) (long :: post) :=
    (List.chain'_append.mp hstops).2.1
  cases pre with
  | nil =>
    have key := foldl_long_alone vid dur ⟨[], [], long.start⟩ long post
      (le_refl _) (fun _ => rfl) hlong hstops2
    rw [List.nil_append]
    rw [chunk_transcript_cons_eq long post vid dur]
    rcases key with ⟨c, hc, hct, hcs⟩ | ⟨hb, hc, hpost⟩
    · exact ⟨c, List.mem_append_left _ hc, hct, hcs⟩
    · subst hpost
      refine ⟨_, List.mem_append_right _ (List.mem_singleton_self _), ?_, ?_⟩
      · show joinSpace (List.foldl (chunkStep vid dur)
          ⟨[], [], long.start⟩ [long]).buf = pyStrip long.text
        rw [hb]
        rfl
      · exact hc
  | cons p0 pre' =>
    obtain ⟨hpwPre, hpwPost, hcross⟩ := List.pairwise_append.mp hpw
    have hlongle : ∀ s ∈ p0 :: pre', s.start ≤ long.start :=
      fun s hs => hcross s hs long (by simp)
    have hcur0 : ∀ s ∈ p0 :: pre',
        (⟨[], [], p0.start⟩ : ChunkState).cur ≤ s.start := by
      intro s hsm
      rcases List.mem_cons.mp hsm with h | h
      · subst h; exact le_refl _
      · exact (List.pairwise_cons.mp hpwPre).1 s h
    obtain ⟨-, hcur⟩ := foldl_chunkStep_times vid dur (p0 :: pre')
      ⟨[], [], p0.start⟩ hpwPre hcur0
      (by intro c hc; exact absurd hc (by simp))
    have hcurle : (List.foldl (chunkStep vid dur)
        ⟨[], [], p0.start⟩ (p0 :: pre')).cur ≤ long.start := by
      rcases hcur with h | ⟨r, hr, h⟩
      · rw [h]; exact hlongle p0 (by simp)
      · rw [h]; exact hlongle r hr
    have hbuf0 : (List.foldl (chunkStep vid dur)
        ⟨[], [], p0.start⟩ (p0 :: pre')).buf ≠ [] :=
      foldl_chunkStep_buf_ne vid dur (p0 :: pre') ⟨[], [], p0.start⟩ (by simp)
    have key := foldl_long_alone vid dur
      (List.foldl (chunkStep vid dur) ⟨[], [], p0.start⟩ (p0 :: pre'))
      long post hcurle (fun h => absurd h hbuf0) hlong hstops2
    have hdecomp : List.foldl (chunkStep vid dur) ⟨[], [], p0.start⟩
        (p0 :: (pre' ++ long :: post)) =
        List.foldl (chunkStep vid dur)
          (List.foldl (chunkStep vid dur) ⟨[], [], p0.start⟩ (p0 :: pre'))
          (long :: post) :=
      List.foldl_append (chunkStep vid dur) ⟨[], [], p0.start⟩
        (p0 :: pre') (long :: post)
    have hconsapp : (p0 :: pre') ++ long :: post =
        p0 :: (pre' ++ long :: post) := rfl
    rw [hconsapp, chunk_transcript_cons_eq p0 (pre' ++ long :: post) vid dur,
      hdecomp]
    rcases key with ⟨c, hc, hct, hcs⟩ | ⟨hb, hcq, hpost⟩
    · exact ⟨c, List.mem_append_left _ hc, hct, hcs⟩
    · subst hpost
      refine ⟨_, List.mem_append_right _ (List.mem_singleton_self _), ?_, ?_⟩
      · show joinSpace (List.foldl (chunkStep vid dur)
          (List.foldl (chunkStep vid dur) ⟨[], [], p0.start⟩ (p0 :: pre'))
          [long]).buf = pyStrip long.text
        rw [hb]
        rfl
      · exact hcq

lemma length_insertScored (x : ℚ × Nat) :
    ∀ l : List (ℚ × Nat), (insertScored x l).length = l.length + 1 := by
  intro l
  induction l with
  | nil => rfl
  | cons y ys ih =>
    unfold insertScored
    split
    · rfl
    · simpa using ih

lemma length_sortScored :
    ∀ l : List (ℚ × Nat), (sortScored l).length = l.length := by
  intro l
  induction l with
  | nil => rfl
  | cons x xs ih =>
    show (insertScored x (sortScored xs)).length = xs.length + 1
    rw [length_insertScored, ih]

lemma mem_insertScored (a x : ℚ × Nat) :
    ∀ l : List (ℚ × Nat), a ∈ insertScored x l → a = x ∨ a ∈ l := by
  intro l
  induction l with
  | nil => intro h; simpa [insertScored] using h
  | cons y ys ih =>
    intro h
    unfold insertScored at h
    split at h
    · rcases List.mem_cons.mp h with h1 | h1
      · exact Or.inl h1
      · exact Or.inr h1
    · rcases List.mem_cons.mp h with h1 | h1
      · exact Or.inr (by simp [h1])
      · rcases ih h1 with h2 | h2
        · exact Or.inl h2
        · exact Or.inr (by simp [h2])

lemma mem_sortScored (a : ℚ × Nat) :
    ∀ l : List (ℚ × Nat), a ∈ sortScored l → a ∈ l := by
  intro l
  induction l with
  | nil => intro h; simp [sortScored] at h
  | cons x xs ih =>
    intro h
    rcases mem_insertScored a x (sortScored xs) h with h1 | h1
    · simp [h1]
    · simp [ih h1]

lemma pyGet_ofNat {α : Type} (l : List α) (i : Nat) :
    pyGet l (i : Int) = l.get? i := by
  unfold pyGet
  rw [if_pos (by positivity)]
  simp

lemma pyGet_neg_one {α : Type} (l : List α) (h : l ≠ []) :
    pyGet l (-1) = l.getLast? := by
  unfold pyGet
  rw [if_neg (by norm_num), if_pos]
  · have hlen : 1 ≤ l.length := List.length_pos.mpr h
    have : ((-1 : Int)).toNat = 0 := rfl
    rw [show (-(-1 : Int)).toNat = 1 from rfl]
    rw [List.getLast?_eq_getElem? l]
    simp [List.get?_eq_getElem?]
  · have hlen : 1 ≤ l.length := List.length_pos.mpr h
    omega

lemma length_faissTop (idx : IndexFlatIP) (q : List ℚ) (k : Nat) :
    (faissTop idx q k).length = min k idx.vectors.length := by
  unfold faissTop
  simp [List.length_take, length_sortScored, List.enum_length]

lemma length_faissSearch (idx : IndexFlatIP) (q : List ℚ) (k : Nat) :
    (faissSearch idx q k).length = k := by
  unfold faissSearch
  simp only [List.length_append, List.length_map, List.length_replicate,
    length_faissTop]
  omega

lemma faissSearch_label (idx : IndexFlatIP) (q : List ℚ) (k : Nat)
    (r : ℚ × Int) (hr : r ∈ faissSearch idx q k) :
    (∃ i : Nat, r.2 = (i : Int) ∧ i < idx.vectors.length) ∨ r.2 = -1 := by
  unfold faissSearch at hr
  rcases List.mem_append.mp hr with h | h
  · left
    obtain ⟨p, hp, hpr⟩ := List.mem_map.mp h
    have hp2 : p ∈ sortScored (idx.vectors.enum.map
        (fun p => (dotProduct q p.2, p.1))) := List.mem_of_mem_take hp
    have hp3 := mem_sortScored _ _ hp2
    obtain ⟨e, he, her⟩ := List.mem_map.mp hp3
    subst her
    refine ⟨e.1, by rw [← hpr], ?_⟩
    have hen := List.mem_enum_iff_getElem?.mp he
    exact (List.getElem?_eq_some.mp hen).1
  · right
    have := List.eq_of_mem_replicate h
    rw [this]

lemma buildResults_ok (l : List TranscriptChunk) :
    ∀ rows : List (ℚ × Int),
      (∀ r ∈ rows, ∃ ch, pyGet l r.2 = some ch) →
      ∃ rs, buildResults l rows = .ok rs ∧ rs.length = rows.length ∧
        ∀ x ∈ rs, ∃ r ∈ rows, ∃ ch, pyGet l r.2 = some ch ∧
          x = mkResult ch r.1 := by
  intro rows
  induction rows with
  | nil => intro _; exact ⟨[], rfl, rfl, by simp⟩
  | cons r rest ih =>
    intro hv
    obtain ⟨ch, hch⟩ := hv r (by simp)
    obtain ⟨rs, hrs, hlen, hmem⟩ := ih (fun r' hr' => hv r' (by simp [hr']))
    refine ⟨mkResult ch r.1 :: rs, ?_, by simp [hlen], ?_⟩
    · show buildResults l ((r.1, r.2) :: rest) = _
      unfold buildResults
      rw [hch, hrs]
    · intro x hx
      rcases List.mem_cons.mp hx with h | h
      · exact ⟨r, by simp, ch, hch, h⟩
      · obtain ⟨r', hr', ch', hch', hx'⟩ := hmem x h
        exact ⟨r', by simp [hr'], ch', hch', hx'⟩

lemma buildResults_append (l : List TranscriptChunk) :
    ∀ (xs ys : List (ℚ × Int)) (rsx rsy : List SearchResult),
      buildResults l xs = .ok rsx → buildResults l ys = .ok rsy →
      buildResults l (xs ++ ys) = .ok (rsx ++ rsy) := by
  intro xs
  induction xs with
  | nil =>
    intro ys rsx rsy hx hy
    cases hx
    simpa using hy
  | cons x xs ih =>
    intro ys rsx rsy hx hy
    show buildResults l ((x.1, x.2) :: (xs ++ ys)) = _
    unfold buildResults
    unfold buildResults at hx
    cases hg : pyGet l x.2 with
    | none => rw [hg] at hx; cases hx
    | some ch =>
      rw [hg] at hx
      cases hbx : buildResults l xs with
      | error err => rw [hbx] at hx; cases hx
      | ok rs0 =>
        rw [hbx] at hx
        cases hx
        rw [ih ys rs0 rsy hbx hy]
        simp

lemma buildResults_replicate (l : List TranscriptChunk) (c : TranscriptChunk)
    (hc : l.getLast? = some c) :
    ∀ m, buildResults l (List.replicate m (paddingScore, -1)) =
      .ok (List.replicate m (mkResult c paddingScore)) := by
  have hl : l ≠ [] := by
    intro h
    rw [h] at hc
    cases hc
  intro m
  induction m with
  | zero => rfl
  | succ n ih =>
    rw [List.replicate_succ, List.replicate_succ]
    unfold buildResults
    rw [pyGet_neg_one l hl, hc, ih]

lemma faissTop_snd_lt (idx : IndexFlatIP) (q : List ℚ) (k : Nat) :
    ∀ p ∈ faissTop idx q k, p.2 < idx.vectors.length := by
  intro p hp
  have hp2 : p ∈ sortScored (idx.vectors.enum.map
      (fun p => (dotProduct q p.2, p.1))) := List.mem_of_mem_take hp
  have hp3 := mem_sortScored _ _ hp2
  obtain ⟨e, he, her⟩ := List.mem_map.mp hp3
  subst her
  have hen := List.mem_enum_iff_getElem?.mp he
  exact (List.getElem?_eq_some.mp hen).1

/-- C2 (amended): `search` returns the empty sequence, never an error, when
the index was never created or the corpus is empty; otherwise, for a
well-formed state and a query vector of the index dimension, it returns
exactly `top_k` results — when fewer than `top_k` vectors are indexed the
trailing slots repeat the last corpus chunk with the faiss sentinel
padding score instead of being dropped (so `min(k, n)` results are
returned only when `k ≤ n`, refuting the claim as stated: see
`C2_counterexample`). -/
theorem C2_search_count (encode : String → List ℚ)
    (e : VideoSearchEngine) (q : String) (k : Nat) :
    (e.index = none → (search encode e q k).1 = .ok []) ∧
    (e.chunks = [] → (search encode e q k).1 = .ok []) ∧
    (∀ idx, e.index = some idx → e.chunks ≠ [] →
      idx.vectors.length ≤ e.chunks.length →
      (encode q).length = idx.d →
      ∃ rs, (search encode e q k).1 = .ok rs ∧ rs.length = k ∧
        ∀ c, e.chunks.getLast? = some c →
          rs.drop (min k idx.vectors.length) =
            List.replicate (k - idx.vectors.length)
              (mkResult c paddingScore)) := by
  refine ⟨?_, ?_, ?_⟩
  · intro h
    unfold search
    rw [h]
  · intro h
    unfold search
    cases e.index with
    | none => rfl
    | some idx =>
      dsimp only
      rw [if_pos h]
  · intro idx hidx hne hlen hq
    unfold search
    rw [hidx]
    dsimp only
    rw [if_neg hne, if_pos hq]
    obtain ⟨c0, hc0⟩ : ∃ c0, e.chunks.getLast? = some c0 := by
      cases hg : e.chunks.getLast? with
      | none => exact absurd (List.getLast?_eq_none_iff.mp hg) hne
      | some c0 => exact ⟨c0, rfl⟩
    have hvalid : ∀ r ∈ (faissTop idx (encode q) k).map
        (fun p => (p.1, (p.2 : Int))), ∃ ch, pyGet e.chunks r.2 = some ch := by
      intro r hr
      obtain ⟨p, hp, hpr⟩ := List.mem_map.mp hr
      have hlt : p.2 < e.chunks.length :=
        lt_of_lt_of_le (faissTop_snd_lt idx (encode q) k p hp) hlen
      subst hpr
      rw [pyGet_ofNat]
      exact ⟨e.chunks.get ⟨p.2, hlt⟩, List.get?_eq_get hlt⟩
    obtain ⟨rsx, hrsx, hlenx, -⟩ := buildResults_ok e.chunks _ hvalid
    have hrsy := buildResults_replicate e.chunks c0 hc0
      (k - idx.vectors.length)
    have hall := buildResults_append e.chunks _ _ _ _ hrsx hrsy
    refine ⟨rsx ++ List.replicate (k - idx.vectors.length)
      (mkResult c0 paddingScore), ?_, ?_, ?_⟩
    · show (buildResults e.chunks (faissSearch idx (encode q) k), e).1 = _
      unfold faissSearch
      exact hall
    · rw [List.length_append, hlenx, List.length_map, length_faissTop,
        List.length_replicate]
      omega
    · intro c hc
      rw [hc0] at hc
      cases hc
      have hlx : rsx.length = min k idx.vectors.length := by
        rw [hlenx, List.length_map, length_faissTop]
      rw [← hlx, List.drop_left]

lemma add_chunks_fst_chunks (e : VideoSearchEngine)
    (cs : List TranscriptChunk) :
    ((add_chunks e cs).1).chunks = e.chunks ++ cs := by
  simp only [add_chunks]
  repeat' split
  all_goals rfl

lemma faissAdd_ok (idx : IndexFlatIP) (vecs : List (List ℚ))
    (idx2 : IndexFlatIP) (h : faissAdd idx vecs = .ok idx2) :
    idx2 = ⟨idx.d, idx.vectors ++ vecs⟩ := by
  unfold faissAdd at h
  split at h
  · cases h; rfl
  · cases h

lemma add_chunks_cons_emb (e : VideoSearchEngine) (c0 : TranscriptChunk)
    (cs' : List TranscriptChunk)
    (hf : (c0 :: cs').filter (fun c => c.embedding.isSome) = c0 :: cs') :
    add_chunks e (c0 :: cs') =
      match e.index with
      | none =>
        (match faissAdd ⟨(c0.embedding.getD []).length, []⟩
            ((c0 :: cs').map (fun c => c.embedding.getD [])) with
        | .ok idx2 =>
          ({ chunks := e.chunks ++ (c0 :: cs'), index := some idx2,
             dimension := some (c0.embedding.getD []).length }, none)
        | .error err =>
          ({ chunks := e.chunks ++ (c0 :: cs'),
             index := some ⟨(c0.embedding.getD []).length, []⟩,
             dimension := some (c0.embedding.getD []).length }, some err))
      | some idx =>
        (match faissAdd idx ((c0 :: cs').map (fun c => c.embedding.getD [])) with
        | .ok idx2 =>
          ({ e with
              chunks := e.chunks ++ (c0 :: cs')
              index := some idx2 }, none)
        | .error err =>
          ({ e with chunks := e.chunks ++ (c0 :: cs') }, some err)) := by
  cases he : e.index with
  | none =>
    simp only [add_chunks, hf]
    rw [he]
    simp only [List.headD_cons]
    simp
  | some idx =>
    simp only [add_chunks, hf]
    rw [he]
    simp

lemma aligned_init : Aligned initEngine :=
  ⟨fun _ => rfl, fun idx h => by simp [initEngine] at h⟩

lemma aligned_step (e : VideoSearchEngine) (cs : List TranscriptChunk)
    (hemb : ∀ c ∈ cs, c.embedding.isSome)
    (herr : (add_chunks e cs).2 = none)
    (hal : Aligned e) : Aligned (add_chunks e cs).1 := by
  cases cs with
  | nil =>
    have hres : add_chunks e [] = (e, none) := by
      simp [add_chunks]
    rw [hres]
    exact hal
  | cons c0 cs' =>
    have hbool : ∀ c ∈ c0 :: cs', (fun c => c.embedding.isSome) c = true := by
      intro c hc
      simpa using hemb c hc
    have hf := List.filter_eq_self.mpr hbool
    rw [add_chunks_cons_emb e c0 cs' hf] at herr ⊢
    cases he : e.index with
    | none =>
      simp only [he] at herr ⊢
      cases hadd : faissAdd ⟨(c0.embedding.getD []).length, []⟩
          ((c0 :: cs').map (fun c => c.embedding.getD [])) with
      | error err =>
        rw [hadd] at herr
        simp at herr
      | ok idx2 =>
        dsimp only at herr ⊢
        have hidx2 := faissAdd_ok _ _ _ hadd
        subst hidx2
        have hchunks0 : e.chunks = [] := hal.1 he
        constructor
        · intro h
          simp at h
        · intro idx hidx
          simp only [Option.some.injEq] at hidx
          subst hidx
          refine ⟨?_, rfl, c0, cs', ?_, rfl⟩
          · simp [hchunks0]
          · simp [hchunks0]
    | some idx0 =>
      simp only [he] at herr ⊢
      cases hadd : faissAdd idx0
          ((c0 :: cs').map (fun c => c.embedding.getD [])) with
      | error err =>
        rw [hadd] at herr
        simp at herr
      | ok idx2 =>
        dsimp only at herr ⊢
        have hidx2 := faissAdd_ok _ _ _ hadd
        subst hidx2
        obtain ⟨hvec, hdim, c, rest, hch, hd⟩ := hal.2 idx0 he
        constructor
        · intro h
          simp at h
        · intro idx hidx
          simp only [Option.some.injEq] at hidx
          subst hidx
          refine ⟨?_, hdim, c, rest ++ (c0 :: cs'), ?_, hd⟩
          · simp [hvec]
          · simp [hch]

/-- C1 (amended): `add_chunks` appends every chunk of the batch to the
corpus, including chunks without an embedding (the claim's "skipping any
without an embedding" is false, see `C1_counterexample`); and in every
state reachable by insertions of fully-embedded batches that raised no
error, the vector index holds exactly the corpus chunks' vectors in
insertion order (`Aligned`), with `D` fixed from the first inserted
chunk's vector length. -/
theorem C1_corpus_and_index_alignment :
    (∀ (e : VideoSearchEngine) (cs : List TranscriptChunk),
      ((add_chunks e cs).1).chunks = e.chunks ++ cs) ∧
    (∀ e, EmbReachable e → Aligned e) := by
  refine ⟨add_chunks_fst_chunks, ?_⟩
  intro e h
  induction h with
  | init => exact aligned_init
  | step e cs hr hemb herr ih => exact aligned_step e cs hemb herr ih

theorem C1_counterexample :
    ((add_chunks initEngine [cNoEmb]).1).chunks = [cNoEmb] ∧
    cNoEmb.embedding = none ∧
    ((add_chunks initEngine [cNoEmb]).1).index = none := by
  refine ⟨?_, rfl, ?_⟩ <;> rfl

theorem C1_witness : Aligned engOne :=
  C1_corpus_and_index_alignment.2 engOne
    (EmbReachable.step initEngine [cEmb] EmbReachable.init (by decide)
      (by decide))

theorem C2_counterexample :
    engOne.index = some ⟨1, [[1]]⟩ ∧
    (search (fun _ => [1]) engOne "q" 2).1.toOption.map List.length =
      some 2 ∧
    (2 : Nat) ≠ min 2 1 := by
  refine ⟨rfl, ?_, by decide⟩
  rfl

theorem C2_witness :
    ∃ rs, (search (fun _ => [1]) engOne "q" 2).1 = .ok rs ∧
      rs.length = 2 :=
  ((C2_search_count (fun _ => [1]) engOne "q" 2).2.2 ⟨1, [[1]]⟩ rfl
    (by decide) (by decide) rfl).imp (fun rs hrs => ⟨hrs.1, hrs.2.1⟩)

lemma pyGet_mem {α : Type} (l : List α) (i : Int) (x : α)
    (h : pyGet l i = some x) : x ∈ l := by
  unfold pyGet at h
  split at h
  · exact List.get?_mem h
  · split at h
    · exact List.get?_mem h
    · cases h

lemma buildResults_mem (l : List TranscriptChunk) :
    ∀ (rows : List (ℚ × Int)) (rs : List SearchResult),
      buildResults l rows = .ok rs →
      ∀ x ∈ rs, ∃ ch ∈ l, ∃ s, x = mkResult ch s := by
  intro rows
  induction rows with
  | nil =>
    intro rs h x hx
    cases h
    cases hx
  | cons r rest ih =>
    intro rs h x hx
    rw [show r = (r.1, r.2) from rfl] at h
    unfold buildResults at h
    cases hg : pyGet l r.2 with
    | none => rw [hg] at h; cases h
    | some ch =>
      rw [hg] at h
      cases hb : buildResults l rest with
      | error err => rw [hb] at h; cases h
      | ok rs0 =>
        rw [hb] at h
        cases h
        rcases List.mem_cons.mp hx with h1 | h1
        · exact ⟨ch, pyGet_mem l r.2 ch hg, r.1, h1⟩
        · exact ih rs0 hb x h1

lemma faissAdd_nil (idx : IndexFlatIP) : faissAdd idx [] = .ok idx := by
  simp [faissAdd]

/-- C3: `search_by_video` coincides with the spec-side description
`query_scoped_spec` — filter the corpus to the video id first, preserving
relative order, build a temporary index over exactly those embedded
vectors, then run the same ranking as the global `search`; it returns the
empty sequence when the video has no chunks, and every returned result
carries the requested `video_id`. -/
theorem C3_scoped_search (encode : String → List ℚ) (e : VideoSearchEngine)
    (vid q : String) (k : Nat) :
    (search_by_video encode e vid q k).1 = query_scoped_spec encode e vid q k ∧
    (e.chunks.filter (fun c => c.video_id = vid) = [] →
      (search_by_video encode e vid q k).1 = .ok []) ∧
    ∀ rs, (search_by_video encode e vid q k).1 = .ok rs →
      ∀ r ∈ rs, r.video_id = vid := by
  refine ⟨?_, ?_, ?_⟩
  · unfold search_by_video query_scoped_spec
    cases hfil : e.chunks.filter (fun c => c.video_id = vid) with
    | nil => rfl
    | cons c cs =>
      rw [if_neg (by simp)]
      cases hd : e.dimension with
      | none => rfl
      | some d =>
        dsimp only
        have hadd : (if (c :: cs).filter (fun c => c.embedding.isSome) ≠ []
            then faissAdd ⟨d, []⟩ (((c :: cs).filter
              (fun c => c.embedding.isSome)).map (fun c => c.embedding.getD []))
            else .ok ⟨d, []⟩) =
            faissAdd ⟨d, []⟩ (((c :: cs).filter
              (fun c => c.embedding.isSome)).map
                (fun c => c.embedding.getD [])) := by
          cases hv : (c :: cs).filter (fun c => c.embedding.isSome) with
          | nil => rw [if_neg (by simp), List.map_nil, faissAdd_nil]
          | cons a as => rw [if_pos (List.cons_ne_nil a as)]
        rw [hadd]
        cases hfa : faissAdd ⟨d, []⟩ (((c :: cs).filter
            (fun c => c.embedding.isSome)).map (fun c => c.embedding.getD [])) with
        | error err => rfl
        | ok temp =>
          dsimp only
          unfold search
          dsimp only
          rw [if_neg (show ¬(c :: cs = []) from by simp)]
          by_cases hq : (encode q).length = temp.d
          · rw [if_pos hq, if_pos hq]
          · rw [if_neg hq, if_neg hq]
  · intro hfil
    unfold search_by_video
    rw [hfil]
  · intro rs hrs r hr
    unfold search_by_video at hrs
    cases hfil : e.chunks.filter (fun c => c.video_id = vid) with
    | nil =>
      rw [hfil] at hrs
      cases hrs
      cases hr
    | cons c cs =>
      rw [hfil] at hrs
      cases hd : e.dimension with
      | none => rw [hd] at hrs; cases hrs
      | some d =>
        rw [hd] at hrs
        dsimp only at hrs
        cases hadd2 : (if (c :: cs).filter (fun c => c.embedding.isSome) ≠ []
            then faissAdd ⟨d, []⟩ (((c :: cs).filter
              (fun c => c.embedding.isSome)).map (fun c => c.embedding.getD []))
            else .ok ⟨d, []⟩) with
        | error err => rw [hadd2] at hrs; cases hrs
        | ok temp =>
          rw [hadd2] at hrs
          dsimp only at hrs
          split at hrs
          · obtain ⟨ch, hch, s, hx⟩ :=
              buildResults_mem (c :: cs) _ rs hrs r hr
            have : ch.video_id = vid := by
              have := List.mem_filter.mp (hfil ▸ hch)
              simpa using this.2
            rw [hx]
            exact this
          · cases hrs

theorem C3_witness :
    (search_by_video (fun _ => [1, 0]) engTwo "video_zzz" "q" 1).1 =
      .ok [] :=
  (C3_scoped_search (fun _ => [1, 0]) engTwo "video_zzz" "q" 1).2.1
    (by decide)

/-- C4: once the index dimension `D` is fixed, inserting a chunk whose
embedding length differs from `D` makes `add_chunks` surface a
dimension-mismatch error to the caller rather than succeeding silently. -/
theorem C4_insert_dimension_mismatch (e : VideoSearchEngine)
    (idx : IndexFlatIP) (c : TranscriptChunk) (v : List ℚ)
    (hidx : e.index = some idx) (hdim : e.dimension = some idx.d)
    (hemb : c.embedding = some v) (hlen : v.length ≠ idx.d) :
    (add_chunks e [c]).2 = some PyError.dimensionMismatch := by
  have hf : [c].filter (fun x => x.embedding.isSome) = [c] := by
    simp [List.filter, hemb]
  rw [show ([c] : List TranscriptChunk) = c :: [] from rfl] at hf ⊢
  rw [add_chunks_cons_emb e c [] hf, hidx]
  dsimp only
  have hmap : (c :: []).map (fun x => x.embedding.getD []) = [v] := by
    simp [hemb]
  rw [hmap]
  have : faissAdd idx [v] = .error .dimensionMismatch := by
    unfold faissAdd
    rw [if_neg (by simp [hlen])]
  rw [this]

theorem C4_witness :
    (add_chunks engOne [⟨"v1", 0, 30, "u", some [1, 2]⟩]).2 =
      some PyError.dimensionMismatch :=
  C4_insert_dimension_mismatch engOne ⟨1, [[1]]⟩
    ⟨"v1", 0, 30, "u", some [1, 2]⟩ [1, 2] rfl rfl rfl (by decide)

lemma le_pyMax_init (x : ℚ) : ∀ xs : List ℚ, x ≤ pyMax x xs := by
  intro xs
  induction xs generalizing x with
  | nil => exact le_refl x
  | cons y ys ih =>
    exact le_trans (le_max_left x y) (ih (max x y))

lemma le_pyMax_mem (y : ℚ) :
    ∀ (xs : List ℚ) (x : ℚ), y ∈ xs → y ≤ pyMax x xs := by
  intro xs
  induction xs with
  | nil => intro x h; cases h
  | cons z zs ih =>
    intro x h
    rcases List.mem_cons.mp h with h1 | h1
    · subst h1
      exact le_trans (le_max_right x y) (le_pyMax_init (max x y) zs)
    · exact ih (max x z) h1

lemma pyMax_mem (x : ℚ) :
    ∀ xs : List ℚ, pyMax x xs = x ∨ pyMax x xs ∈ xs := by
  intro xs
  induction xs generalizing x with
  | nil => exact Or.inl rfl
  | cons y ys ih =>
    rcases ih (max x y) with h | h
    · rcases max_choice x y with h2 | h2
      · left
        show pyMax (max x y) ys = x
        rw [h, h2]
      · right
        show pyMax (max x y) ys ∈ y :: ys
        rw [h, h2]
        simp
    · right
      exact List.mem_cons_of_mem y h

/-- C8: `get_video_summary` returns an absent result for a video with no
chunks rather than raising, and otherwise a summary for the requested
video whose `chunk_count` is the number of that video's chunks and whose
`total_duration` is the maximum `end_time` over them. -/
theorem C8_video_summary (e : VideoSearchEngine) (vid : String) :
    ((e.chunks.filter (fun c => c.video_id = vid) = []) →
      (get_video_summary e vid).1 = none) ∧
    ∀ s, (get_video_summary e vid).1 = some s →
      s.video_id = vid ∧
      s.chunk_count = (e.chunks.filter (fun c => c.video_id = vid)).length ∧
      s.total_duration ∈
        (e.chunks.filter (fun c => c.video_id = vid)).map
          (fun c => c.end_time) ∧
      ∀ c ∈ e.chunks.filter (fun c => c.video_id = vid),
        c.end_time ≤ s.total_duration := by
  constructor
  · intro hfil
    unfold get_video_summary
    rw [hfil]
  · intro s hs
    unfold get_video_summary at hs
    cases hfil : e.chunks.filter (fun c => c.video_id = vid) with
    | nil => rw [hfil] at hs; cases hs
    | cons c rest =>
      rw [hfil] at hs
      dsimp only at hs
      cases hs
      refine ⟨rfl, rfl, ?_, ?_⟩
      · rcases pyMax_mem c.end_time (rest.map (fun c => c.end_time)) with h | h
        · rw [h]
          simp
        · simp only [List.map_cons]
          exact List.mem_cons_of_mem _ h
      · intro c' hc'
        rcases List.mem_cons.mp hc' with h1 | h1
        · subst h1
          exact le_pyMax_init _ _
        · exact le_pyMax_mem c'.end_time _ _
            (List.mem_map_of_mem (fun c => c.end_time) h1)

lemma format_timestamp_90 : format_timestamp 90 = "01:30" := by
  unfold format_timestamp
  rw [show ⌊(90:ℚ)/60⌋ = 1 from by norm_num [Int.floor_eq_iff]]
  rw [show (90:ℚ) - 60 * ((1:ℤ):ℚ) = 30 from by norm_num]
  rw [show ⌊(30:ℚ)⌋ = 30 from by norm_num]
  decide

lemma eng8_summary : (get_video_summary eng8 "video_001").1 =
    some ⟨"video_001", 90, 3, "01:30"⟩ := by
  unfold get_video_summary
  rw [show eng8.chunks.filter (fun c => c.video_id = "video_001") =
    [⟨"video_001", 0, 30, "x", some [1]⟩, ⟨"video_001", 30, 60, "y", some [1]⟩,
     ⟨"video_001", 60, 90, "z", some [1]⟩] from by decide]
  dsimp only
  rw [show List.map (fun c => c.end_time) [(⟨"video_001", 30, 60, "y",
    some [1]⟩ : TranscriptChunk), ⟨"video_001", 60, 90, "z", some [1]⟩] =
    [60, 90] from by decide]
  rw [show pyMax (30:ℚ) [60, 90] = 90 from by decide]
  rw [format_timestamp_90]
  rfl

theorem C8_witness :
    (⟨"video_001", (90:ℚ), 3, "01:30"⟩ : VideoSummary).video_id =
      "video_001" ∧
    (⟨"video_001", (90:ℚ), 3, "01:30"⟩ : VideoSummary).chunk_count =
      (eng8.chunks.filter (fun c => c.video_id = "video_001")).length ∧
    (⟨"video_001", (90:ℚ), 3, "01:30"⟩ : VideoSummary).total_duration ∈
      (eng8.chunks.filter (fun c => c.video_id = "video_001")).map
        (fun c => c.end_time) := by
  have h := (C8_video_summary eng8 "video_001").2 _ eng8_summary
  exact ⟨h.1, h.2.1, h.2.2.1⟩

/-- C10: the query-side operations `search`, `search_by_video`,
`get_video_summary` and `get_all_videos` leave the engine state — corpus,
vector index and fixed dimension — unchanged; only `add_chunks` mutates. -/
theorem C10_query_methods_pure (encode : String → List ℚ)
    (e : VideoSearchEngine) (q vid : String) (k : Nat) :
    (search encode e q k).2 = e ∧
    (search_by_video encode e vid q k).2 = e ∧
    (get_video_summary e vid).2 = e ∧
    (get_all_videos e).2 = e := by
  refine ⟨?_, ?_, ?_, rfl⟩
  · unfold search
    cases e.index with
    | none => rfl
    | some idx =>
      dsimp only
      split
      · rfl
      · split <;> rfl
  · unfold search_by_video
    cases e.chunks.filter (fun c => c.video_id = vid) with
    | nil => rfl
    | cons c cs =>
      cases e.dimension with
      | none => rfl
      | some d =>
        dsimp only
        split
        · rfl
        · split <;> rfl
  · unfold get_video_summary
    cases e.chunks.filter (fun c => c.video_id = vid) <;> rfl

theorem C5_witness :
    List.Chain' (fun a b => a.end_time = b.start_time)
      (chunk_transcript segsW "v" 30) ∧
    ∀ s, segsW.getLast? = some s →
      ∃ c, (chunk_transcript segsW "v" 30).getLast? = some c ∧
        c.end_time = s.stop :=
  C5_contiguity segsW "v" 30 (by decide)
    (by norm_num [segsW, List.chain'_cons, List.chain'_singleton])

lemma segsW_eval : chunk_transcript segsW "v" 30 =
    [⟨"v", 0, 30, "s1", none⟩, ⟨"v", 30, 60, "s2", none⟩,
     ⟨"v", 60, 90, "s3", none⟩] := by
  have h1 : chunkStep "v" 30 ⟨[], [], 0⟩ ⟨0, 30, "s1"⟩ =
      ⟨[], ["s1"], 0⟩ := by
    unfold chunkStep
    rw [if_neg (by norm_num)]
    decide
  have h2 : chunkStep "v" 30 ⟨[], ["s1"], 0⟩ ⟨30, 60, "s2"⟩ =
      ⟨[⟨"v", 0, 30, "s1", none⟩], ["s2"], 30⟩ := by
    unfold chunkStep
    rw [if_pos ⟨by norm_num, by decide⟩]
    decide
  have h3 : chunkStep "v" 30 ⟨[⟨"v", 0, 30, "s1", none⟩], ["s2"], 30⟩
      ⟨60, 90, "s3"⟩ =
      ⟨[⟨"v", 0, 30, "s1", none⟩, ⟨"v", 30, 60, "s2", none⟩], ["s3"], 60⟩ := by
    unfold chunkStep
    rw [if_pos ⟨by norm_num, by decide⟩]
    decide
  unfold chunk_transcript segsW
  dsimp only
  rw [List.foldl_cons, List.foldl_cons, List.foldl_cons, List.foldl_nil,
    h1, h2, h3]
  rw [if_pos (by decide : ((["s3"] : List String)) ≠ [])]
  decide

theorem C9_witness :
    (⟨"v", 0, 30, "s1", none⟩ : TranscriptChunk).start_time ≤
      (⟨"v", 0, 30, "s1", none⟩ : TranscriptChunk).end_time :=
  C9_start_le_end segsW "v" 30 (by norm_num [segsW, List.pairwise_cons])
    (by norm_num [segsW]) ⟨"v", 0, 30, "s1", none⟩
    (by rw [segsW_eval]; decide)

lemma segsC7_eval : chunk_transcript segsC7 "v" 30 =
    [⟨"v", 0, 5, "a", none⟩, ⟨"v", 5, 20, "b c", none⟩] := by
  have h1 : chunkStep "v" 30 ⟨[], [], 0⟩ ⟨0, 10, "a"⟩ = ⟨[], ["a"], 0⟩ := by
    unfold chunkStep
    rw [if_neg (by norm_num)]
    decide
  have h2 : chunkStep "v" 30 ⟨[], ["a"], 0⟩ ⟨5, 100, "b"⟩ =
      ⟨[⟨"v", 0, 5, "a", none⟩], ["b"], 5⟩ := by
    unfold chunkStep
    rw [if_pos ⟨by norm_num, by decide⟩]
    decide
  have h3 : chunkStep "v" 30 ⟨[⟨"v", 0, 5, "a", none⟩], ["b"], 5⟩
      ⟨6, 20, "c"⟩ = ⟨[⟨"v", 0, 5, "a", none⟩], ["b", "c"], 5⟩ := by
    unfold chunkStep
    rw [if_neg (by norm_num)]
    decide
  unfold chunk_transcript segsC7
  dsimp only
  rw [List.foldl_cons, List.foldl_cons, List.foldl_cons, List.foldl_nil,
    h1, h2, h3]
  rw [if_pos (by decide : ((["b", "c"] : List String)) ≠ [])]
  decide

theorem C7_counterexample :
    List.Chain' (fun a b => a.start ≤ b.start) segsC7 ∧
    (⟨5, 100, "b"⟩ : Segment).stop - (⟨5, 100, "b"⟩ : Segment).start > 30 ∧
    segsC7 = [⟨0, 10, "a"⟩] ++ ⟨5, 100, "b"⟩ :: [⟨6, 20, "c"⟩] ∧
    chunk_transcript segsC7 "v" 30 =
      [⟨"v", 0, 5, "a", none⟩, ⟨"v", 5, 20, "b c", none⟩] ∧
    pyStrip "b" ∉ (chunk_transcript segsC7 "v" 30).map (fun c => c.text) := by
  refine ⟨by norm_num [segsC7, List.chain'_cons, List.chain'_singleton],
    by norm_num, by decide, segsC7_eval, ?_⟩
  rw [segsC7_eval]
  decide

theorem C7_witness :
    ∃ c ∈ chunk_transcript
        ([⟨0, 10, "a"⟩] ++ ⟨10, 50, "b"⟩ :: [⟨50, 60, "c"⟩]) "v" 30,
      c.text = pyStrip "b" ∧
      c.start_time = (⟨10, 50, "b"⟩ : Segment).start :=
  C7_amended "v" 30 [⟨0, 10, "a"⟩] [⟨50, 60, "c"⟩] ⟨10, 50, "b"⟩
    (by norm_num [List.pairwise_cons])
    (by norm_num [List.chain'_cons, List.chain'_singleton]) (by norm_num)
